import Mathlib

/-!
Shallow embedding of the hierarchical summarization pipeline of
src/summarizer.py (class SmartSummarizer and the module-level helpers
clean_text / split_sentences).

Modelling conventions:
* The BART tokenizer is opaque: it is modelled as an arbitrary function
  tok : String -> Nat returning the token count of a string (the code only
  ever uses the shape of the input_ids, i.e. the count).
* The generation model is opaque: it is modelled as an arbitrary function
  gen : String -> Nat -> String from (input text, target word count) to the
  generated summary.  The decoding parameters (min/max generation length,
  beam count, no-repeat-ngram) and the truncation of over-long inputs are
  internal to the model call and folded into gen.
* Functions that invoke the model return, besides their result, the ordered
  trace of model invocations as a list of (input text, target word count)
  pairs, so that claims about the number and arguments of model calls can
  be stated.
* Python regular-expression character class \s is modelled by the ASCII
  whitespace characters; Char.toLower models str.lower (they agree on
  ASCII).  Python str is modelled by Lean String, int by Nat where the
  code only ever holds non-negative counts.
-/

namespace Gist

/-- Whitespace as matched by the regular expressions in summarizer.py
(ASCII fragment of Python's whitespace class). -/
def isPySpace (c : Char) : Bool :=
  c = ' ' || c = '\t' || c = '\n' || c = '\r' || c = '\x0b' || c = '\x0c'

/-- Sentence-terminal punctuation characters used by split_sentences and
by the deduplication key. -/
def isTermPunct (c : Char) : Bool :=
  c = '.' || c = '!' || c = '?'

/-- Replace every maximal run of characters satisfying p by the single
character repl; the Boolean argument records whether the previous
character was part of a run.  Models re.sub of a one-character-class
plus pattern. -/
def collapseRunsAux (p : Char → Bool) (repl : Char) : Bool → List Char → List Char
  | _, [] => []
  | inRun, c :: rest =>
    if p c then
      if inRun then collapseRunsAux p repl true rest
      else repl :: collapseRunsAux p repl true rest
    else c :: collapseRunsAux p repl false rest

/-- Replace every maximal run of characters satisfying p by repl. -/
def collapseRuns (p : Char → Bool) (repl : Char) (cs : List Char) : List Char :=
  collapseRunsAux p repl false cs

/-- Remove leading and trailing characters satisfying p (models
str.strip / str.rstrip with the corresponding character set). -/
def dropEnds (p : Char → Bool) (cs : List Char) : List Char :=
  ((cs.dropWhile p).reverse.dropWhile p).reverse

/-- Embedding of clean_text: the utf-8 encode/decode round-trip is the
identity on (always valid) Lean strings; then the replacement character
is removed, runs of periods are collapsed to one period, runs of
whitespace are collapsed to one space, and the result is stripped. -/
def clean_text (s : String) : String :=
  let cs := s.data.filter (fun c => c ≠ '�')
  let cs := collapseRuns (fun c => c = '.') '.' cs
  let cs := collapseRuns isPySpace ' ' cs
  String.mk (dropEnds isPySpace cs)

/-- Walk of split_sentences: prev is the previous character of the
original text; a whitespace character whose predecessor is
sentence-terminal punctuation ends the current fragment (the rest of
the whitespace run accumulates into the next fragment and is removed
by the strip that follows).  Models re.split with the look-behind
pattern of summarizer.py. -/
def splitSentencesAux : Option Char → List Char → List Char → List (List Char)
  | _, [], acc => [acc.reverse]
  | prev, c :: rest, acc =>
    if isPySpace c && (match prev with
      | some p => isTermPunct p
      | none => false) then
      acc.reverse :: splitSentencesAux (some c) rest []
    else
      splitSentencesAux (some c) rest (c :: acc)

/-- Embedding of split_sentences: split after sentence-terminal
punctuation followed by whitespace, strip each fragment, drop empty
fragments. -/
def split_sentences (s : String) : List String :=
  ((splitSentencesAux none s.data []).map
      (fun cs => String.mk (dropEnds isPySpace cs))).filter (fun t => t ≠ "")

/-- Deduplication key of _remove_duplicates:
sent.strip().rstrip(".!?").lower() in that order. -/
def normalized (s : String) : String :=
  String.mk (((dropEnds isPySpace s.data).reverse.dropWhile isTermPunct).reverse.map Char.toLower)

/-- Loop of _remove_duplicates, with the set of already seen keys as a
list. -/
def remove_duplicates_aux (seen : List String) : List String → List String
  | [] => []
  | s :: rest =>
    let n := normalized s
    if n ≠ "" ∧ n ∉ seen then s :: remove_duplicates_aux (n :: seen) rest
    else remove_duplicates_aux seen rest

/-- Embedding of _remove_duplicates. -/
def remove_duplicates (sentences : List String) : List String :=
  remove_duplicates_aux [] sentences

/-- State of the chunk-building walk of _create_balanced_chunks. -/
structure ChunkState where
  chunks : List (List String)
  current : List String
  currentTokens : Nat
deriving DecidableEq, Repr

/-- Forced break positions of _create_balanced_chunks:
break_points = \x7btotal // 3, 2 * total // 3\x7d. -/
def isBreakPoint (total idx : Nat) : Bool :=
  idx = total / 3 || idx = 2 * total / 3

/-- Per-chunk token ceiling of _create_balanced_chunks. -/
def chunk_limit : Nat := 900

/-- One iteration of the loop of _create_balanced_chunks for the
sentence sent at position idx. -/
def chunkStep (tok : String → Nat) (total idx : Nat) (sent : String) (st : ChunkState) :
    ChunkState :=
  let cnt := tok sent
  let st :=
    if isBreakPoint total idx ∧ st.current ≠ [] then
      { chunks := st.chunks ++ [st.current], current := [], currentTokens := 0 }
    else st
  if st.currentTokens + cnt > chunk_limit ∧ st.current ≠ [] then
    { chunks := st.chunks ++ [st.current], current := [sent], currentTokens := cnt }
  else
    { st with current := st.current ++ [sent], currentTokens := st.currentTokens + cnt }

/-- The walk over the sentence list, carrying the position idx. -/
def chunkWalk (tok : String → Nat) (total : Nat) : Nat → List String → ChunkState → ChunkState
  | _, [], st => st
  | idx, s :: rest, st => chunkWalk tok total (idx + 1) rest (chunkStep tok total idx s st)

/-- Embedding of _create_balanced_chunks: walk the sentences from an
empty state, then close the open chunk if it is non-empty. -/
def create_balanced_chunks (tok : String → Nat) (sentences : List String) :
    List (List String) :=
  let st := chunkWalk tok sentences.length 0 sentences ⟨[], [], 0⟩
  if st.current = [] then st.chunks else st.chunks ++ [st.current]

/-- Total measured token count of a chunk: the sum of the token counts of
its sentences, as accumulated by the loop of _create_balanced_chunks. -/
def sumTok (tok : String → Nat) (chunk : List String) : Nat :=
  (chunk.map tok).sum

/-- Invariant of the chunk-building walk used for the token bound: the
running counter equals the token sum of the open chunk, an open chunk
with at least two sentences is within the ceiling, and every closed
chunk is within the ceiling or is a single sentence. -/
def TokenInv (tok : String → Nat) (st : ChunkState) : Prop :=
  st.currentTokens = sumTok tok st.current ∧
  (2 ≤ st.current.length → st.currentTokens ≤ chunk_limit) ∧
  (∀ c ∈ st.chunks, sumTok tok c ≤ chunk_limit ∨ c.length = 1)

/-- Word characters of the regular expressions of _verify_coverage (ASCII
fragment of Python's \w for str patterns). -/
def isWordChar (c : Char) : Bool :=
  ('a' ≤ c && c ≤ 'z') || ('A' ≤ c && c ≤ 'Z') || ('0' ≤ c && c ≤ '9') || c = '_'

/-- Lowercase ASCII letter, the class [a-z]. -/
def isLowerAlpha (c : Char) : Bool :=
  'a' ≤ c && c ≤ 'z'

/-- Split a character list into its maximal runs of word characters;
acc accumulates the current run reversed. -/
def wordRunsAux : List Char → List Char → List (List Char)
  | [], acc => if acc = [] then [] else [acc.reverse]
  | c :: rest, acc =>
    if isWordChar c then wordRunsAux rest (c :: acc)
    else if acc = [] then wordRunsAux rest []
    else acc.reverse :: wordRunsAux rest []

/-- Concept tokens of a text: the set of matches of the pattern of
_verify_coverage, namely maximal word-character runs that consist only
of lowercase letters and have length at least 5 (a run containing any
other word character admits no word boundary and is skipped whole). -/
def concept_tokens (s : String) : Finset String :=
  (((wordRunsAux s.data []).filter
      (fun r => 5 ≤ r.length ∧ r.all isLowerAlpha)).map String.mk).toFinset

/-- Python str.lower, character by character (agrees on ASCII). -/
def pyLower (s : String) : String :=
  String.mk (s.data.map Char.toLower)

/-- The separator join " ".join of Python. -/
def joinSp (parts : List String) : String :=
  String.intercalate (" ") parts

/-- Embedding of _verify_coverage, with exact rational arithmetic in
place of Python floats (the quotient of two small integer cardinalities
times 100). -/
def verify_coverage (original_sentences : List String) (summary : String) : ℚ :=
  let original_concepts := concept_tokens (pyLower (joinSp original_sentences))
  let summary_concepts := concept_tokens (pyLower summary)
  if original_concepts = ∅ then 100
  else ((original_concepts ∩ summary_concepts).card : ℚ) / original_concepts.card * 100

/-- Target word count of a summarization level, as selected by the
if/elif/else ladder of generate_summary. -/
def targetWords (level : String) : Nat :=
  if level = "abstract" then 60
  else if level = "article" then 250
  else 130

/-- The model input-length bound self.max_input_tokens. -/
def max_input_tokens : Nat := 1024

/-- Embedding of _direct_summarize: one model invocation on the text with
the target word count; the trace records that single call. -/
def direct_summarize (gen : String → Nat → String) (text : String) (target_words : Nat) :
    String × List (String × Nat) :=
  (gen text target_words, [(text, target_words)])

/-- Embedding of _hierarchical_summarize: build chunks, summarize each
chunk with the generous per-chunk word budget, join the chunk summaries
and compress them with one final call.  The coverage metric the code
prints is diagnostic only and does not affect the result. -/
def hierarchical_summarize (tok : String → Nat) (gen : String → Nat → String)
    (sentences : List String) (target_words : Nat) : String × List (String × Nat) :=
  let chunks := create_balanced_chunks tok sentences
  let words_per_chunk := max 80 (target_words * 7 / 10)
  let chunk_summaries := chunks.map (fun c => gen (joinSp c) words_per_chunk)
  let combined_text := joinSp chunk_summaries
  let final_summary := gen combined_text target_words
  (final_summary,
    chunks.map (fun c => (joinSp c, words_per_chunk)) ++ [(combined_text, target_words)])

/-- Embedding of generate_summary: clean, split, short-circuit on an
empty sentence list, deduplicate, pick the level's target word count,
and choose the single-pass or the multi-stage path by comparing the
token count of the joined deduplicated text with max_input_tokens. -/
def generate_summary (tok : String → Nat) (gen : String → Nat → String)
    (text : String) (level : String) : String × List (String × Nat) :=
  let cleaned := clean_text text
  let original_sentences := split_sentences cleaned
  if original_sentences = [] then ("", [])
  else
    let unique_sentences := remove_duplicates original_sentences
    let target_words := targetWords level
    let full_text := joinSp unique_sentences
    let num_tokens := tok full_text
    if num_tokens > max_input_tokens then
      hierarchical_summarize tok gen unique_sentences target_words
    else
      direct_summarize gen full_text target_words

/-- Deduplication key in the order the specification states it:
lowercase first, then strip trailing terminal punctuation, then trim
outer whitespace.  Stated for comparison with the key the code
computes (normalized); modelled from the spec's words. -/
def specNormKey (s : String) : String :=
  String.mk (dropEnds isPySpace ((s.data.map Char.toLower).reverse.dropWhile isTermPunct).reverse)

/-- Concrete tokenizer stand-in used by witnesses: token count equal to
the character count. -/
def tokLen (s : String) : Nat := s.length

/-- Concrete generation stand-in used by witnesses. -/
def genConst (_text : String) (_target : Nat) : String := "model output"

end Gist

section SanityChecks

open Gist

example : clean_text ("  a..  b!c  ") = "a. b!c" := rfl

example : split_sentences ("Hi. There!  Ok") = ["Hi.", "There!", "Ok"] := rfl

example : split_sentences ("") = [] := rfl

example : remove_duplicates (["Cats are mammals.", "Cats are mammals!"]) =
    ["Cats are mammals."] := rfl

example : normalized ("  Hi.  ") = "hi" := rfl

example : create_balanced_chunks tokLen (["aa.", "bb."]) = [["aa."], ["bb."]] := by decide

example : verify_coverage (["Hello World."]) ("hello") = 50 := by
  have h1 : concept_tokens (pyLower (joinSp (["Hello World."]))) = {"hello", "world"} := by
    decide
  have h2 : concept_tokens (pyLower ("hello")) = {"hello"} := by decide
  have h3 : ({"hello", "world"} ∩ {"hello"} : Finset String) = {"hello"} := by decide
  have h4 : ({"hello", "world"} : Finset String).card = 2 := by decide
  simp only [verify_coverage, h1, h2, h3, h4]
  norm_num

end SanityChecks

namespace Gist

/-- One chunk step preserves the concatenation of all sentences seen so
far: closed chunks followed by the open chunk, extended by the incoming
sentence. -/
theorem chunkStep_flatten (tok : String → Nat) (total idx : Nat) (sent : String)
    (st : ChunkState) :
    (chunkStep tok total idx sent st).chunks.flatten ++ (chunkStep tok total idx sent st).current =
      st.chunks.flatten ++ st.current ++ [sent] := by
  simp only [chunkStep]
  split_ifs <;> simp_all [List.flatten_append]

/-- One chunk step keeps every closed chunk non-empty. -/
theorem chunkStep_chunks_ne_nil (tok : String → Nat) (total idx : Nat) (sent : String)
    (st : ChunkState) (h : ∀ c ∈ st.chunks, c ≠ []) :
    ∀ c ∈ (chunkStep tok total idx sent st).chunks, c ≠ [] := by
  intro c hc
  simp only [chunkStep] at hc
  split_ifs at hc with h1 h2 h3
  · simp at h2
  · simp only [List.mem_append, List.mem_singleton] at hc
    rcases hc with hc | hc
    · exact h c hc
    · subst hc; exact h1.2
  · simp only [List.mem_append, List.mem_singleton] at hc
    rcases hc with hc | hc
    · exact h c hc
    · subst hc; exact h3.2
  · exact h c hc

/-- The chunk walk preserves the concatenation invariant: the final
closed chunks followed by the final open chunk equal the initial ones
followed by all walked sentences. -/
theorem chunkWalk_flatten (tok : String → Nat) (total : Nat) (l : List String) :
    ∀ (idx : Nat) (st : ChunkState),
      (chunkWalk tok total idx l st).chunks.flatten ++ (chunkWalk tok total idx l st).current =
        st.chunks.flatten ++ st.current ++ l := by
  induction l with
  | nil => intro idx st; simp [chunkWalk]
  | cons s rest ih =>
    intro idx st
    rw [chunkWalk, ih, chunkStep_flatten]
    simp

/-- The chunk walk keeps every closed chunk non-empty. -/
theorem chunkWalk_chunks_ne_nil (tok : String → Nat) (total : Nat) (l : List String) :
    ∀ (idx : Nat) (st : ChunkState), (∀ c ∈ st.chunks, c ≠ []) →
      ∀ c ∈ (chunkWalk tok total idx l st).chunks, c ≠ [] := by
  induction l with
  | nil => intro idx st h; exact h
  | cons s rest ih =>
    intro idx st h
    exact ih (idx + 1) _ (chunkStep_chunks_ne_nil tok total idx s st h)

/-- C1: the chunks of the chunk builder, concatenated in order, are
exactly the input sentence list (no sentence lost, reordered or
duplicated), every produced chunk is non-empty, and an empty input
yields zero chunks. -/
theorem create_balanced_chunks_partition (tok : String → Nat) (sentences : List String) :
    (create_balanced_chunks tok sentences).flatten = sentences ∧
    (∀ c ∈ create_balanced_chunks tok sentences, c ≠ []) ∧
    (sentences = [] → create_balanced_chunks tok sentences = []) := by
  have hflat := chunkWalk_flatten tok sentences.length sentences 0 ⟨[], [], 0⟩
  have hne := chunkWalk_chunks_ne_nil tok sentences.length sentences 0 ⟨[], [], 0⟩
    (by intro c hc; simp at hc)
  simp only [List.flatten_nil, List.nil_append] at hflat
  refine ⟨?_, ?_, ?_⟩
  · simp only [create_balanced_chunks]
    split_ifs with h
    · rw [h, List.append_nil] at hflat; exact hflat
    · rw [List.flatten_append]
      simpa using hflat
  · simp only [create_balanced_chunks]
    split_ifs with h
    · exact hne
    · intro c hc
      rcases List.mem_append.mp hc with hc | hc
      · exact hne c hc
      · rw [List.mem_singleton] at hc
        exact hc ▸ h
  · intro h
    subst h
    simp [create_balanced_chunks, chunkWalk]

/-- Witness for C1 on a concrete two-sentence input. -/
theorem create_balanced_chunks_partition_witness :
    (create_balanced_chunks tokLen (["aa.", "bb."])).flatten = ["aa.", "bb."] :=
  (create_balanced_chunks_partition tokLen (["aa.", "bb."])).1

/-- A non-empty open chunk satisfying the invariant is itself within the
ceiling or a single sentence. -/
theorem TokenInv.current_ok (tok : String → Nat) (st : ChunkState)
    (h : TokenInv tok st) (hne : st.current ≠ []) :
    sumTok tok st.current ≤ chunk_limit ∨ st.current.length = 1 := by
  rcases Nat.lt_or_ge st.current.length 2 with hlt | hge
  · right
    have h0 : st.current.length ≠ 0 := fun hz => hne (List.length_eq_zero.mp hz)
    omega
  · left
    rw [← h.1]
    exact h.2.1 hge

/-- One chunk step preserves the token invariant. -/
theorem chunkStep_tokenInv (tok : String → Nat) (total idx : Nat) (sent : String)
    (st : ChunkState) (h : TokenInv tok st) :
    TokenInv tok (chunkStep tok total idx sent st) := by
  obtain ⟨hcnt, hcur, hchunks⟩ := h
  simp only [TokenInv, chunkStep]
  split_ifs with h1 h2 h3
  · -- forced break taken and the token guard on the emptied chunk: vacuous
    simp at h2
  · -- forced break taken, sentence starts the fresh chunk
    refine ⟨by simp [sumTok], by simp, ?_⟩
    intro c hc
    simp only [List.mem_append, List.mem_singleton] at hc
    rcases hc with hc | hc
    · exact hchunks c hc
    · subst hc
      exact TokenInv.current_ok tok st ⟨hcnt, hcur, hchunks⟩ h1.2
  · -- no forced break, token guard fires: close the chunk, sentence alone remains
    refine ⟨by simp [sumTok], by simp, ?_⟩
    intro c hc
    simp only [List.mem_append, List.mem_singleton] at hc
    rcases hc with hc | hc
    · exact hchunks c hc
    · subst hc
      exact TokenInv.current_ok tok st ⟨hcnt, hcur, hchunks⟩ h3.2
  · -- no forced break, sentence appended to the open chunk
    refine ⟨by simp [sumTok, hcnt], ?_, by simpa using hchunks⟩
    intro hlen
    by_cases he : st.current = []
    · rw [he] at hlen
      simp at hlen
    · have hng : ¬(chunk_limit < st.currentTokens + tok sent) := fun hgt => h3 ⟨hgt, he⟩
      show st.currentTokens + tok sent ≤ chunk_limit
      omega

/-- The chunk walk preserves the token invariant. -/
theorem chunkWalk_tokenInv (tok : String → Nat) (total : Nat) (l : List String) :
    ∀ (idx : Nat) (st : ChunkState), TokenInv tok st →
      TokenInv tok (chunkWalk tok total idx l st) := by
  induction l with
  | nil => intro idx st h; exact h
  | cons s rest ih =>
    intro idx st h
    exact ih (idx + 1) _ (chunkStep_tokenInv tok total idx s st h)

/-- C2: every chunk of the chunk builder has a token sum of at most the
ceiling 900, or consists of exactly one sentence (whose own count then
may exceed the ceiling). -/
theorem create_balanced_chunks_token_bound (tok : String → Nat) (sentences : List String)
    (c : List String) (hc : c ∈ create_balanced_chunks tok sentences) :
    sumTok tok c ≤ chunk_limit ∨ c.length = 1 := by
  have hinv : TokenInv tok (chunkWalk tok sentences.length 0 sentences ⟨[], [], 0⟩) :=
    chunkWalk_tokenInv tok sentences.length sentences 0 ⟨[], [], 0⟩
      ⟨by simp [sumTok], by simp, by intro c hc; simp at hc⟩
  simp only [create_balanced_chunks] at hc
  split_ifs at hc with h
  · exact hinv.2.2 c hc
  · rcases List.mem_append.mp hc with hc | hc
    · exact hinv.2.2 c hc
    · rw [List.mem_singleton] at hc
      subst hc
      exact TokenInv.current_ok tok _ hinv h

/-- Witness for C2 on a concrete input within the ceiling. -/
theorem create_balanced_chunks_token_bound_witness :
    sumTok tokLen (["aa."]) ≤ chunk_limit ∨ ((["aa."]) : List String).length = 1 :=
  create_balanced_chunks_token_bound tokLen (["aa."]) (["aa."]) (by decide)

/-- C3: the chunk builder forces a break exactly at the indices
floor(total/3) and floor(2*total/3): whenever the walk reaches such an
index with a non-empty open chunk, the step closes the open chunk and
starts a new chunk holding just the incoming sentence, whatever the
token budget; and for a 30-sentence input the forced breaks are the
indices 10 and 20. -/
theorem chunkStep_forced_break (tok : String → Nat) (total idx : Nat) (sent : String)
    (st : ChunkState) (hbp : isBreakPoint total idx = true) (hne : st.current ≠ []) :
    chunkStep tok total idx sent st =
      { chunks := st.chunks ++ [st.current], current := [sent], currentTokens := tok sent } ∧
    (∀ j, isBreakPoint total j = true ↔ (j = total / 3 ∨ j = 2 * total / 3)) ∧
    (∀ j, isBreakPoint 30 j = true ↔ (j = 10 ∨ j = 20)) := by
  refine ⟨?_, ?_, ?_⟩
  · simp [chunkStep, hbp, hne]
  · intro j
    simp [isBreakPoint]
  · intro j
    simp only [isBreakPoint, Bool.or_eq_true, decide_eq_true_eq]

/-- Witness for C3 at a concrete state: at index 10 of a 30-sentence
walk the open chunk is closed even though its token budget is far from
exhausted. -/
theorem chunkStep_forced_break_witness :
    chunkStep tokLen 30 10 ("s.") ⟨[], ["a."], 2⟩ =
      { chunks := [["a."]], current := ["s."], currentTokens := tokLen ("s.") } :=
  (chunkStep_forced_break tokLen 30 10 ("s.") ⟨[], ["a."], 2⟩ (by decide) (by decide)).1

/-- C5 (amended): when sentence splitting of the cleaned text yields no
sentences, generate_summary returns the empty string and the model is
never invoked (empty call trace).  The original claim spoke of inputs
empty after normalization and deduplication; the code only
short-circuits before deduplication. -/
theorem generate_summary_empty_input (tok : String → Nat) (gen : String → Nat → String)
    (text level : String) (h : split_sentences (clean_text text) = []) :
    generate_summary tok gen text level = ("", []) := by
  simp [generate_summary, h]

/-- Witness for C5: the empty input string yields an empty summary and
an empty model-call trace. -/
theorem generate_summary_empty_input_witness :
    generate_summary tokLen genConst ("") ("summary") = ("", []) :=
  generate_summary_empty_input tokLen genConst ("") ("summary") (by decide)

/-- Counterexample to C5 as stated: the input consisting of a lone
period yields no sentences after deduplication (its deduplication key
is empty, so the only sentence is dropped), yet the model is invoked
once, on the empty joined text, instead of zero times. -/
theorem generate_summary_empty_after_dedup_cex :
    remove_duplicates (split_sentences (clean_text ("."))) = [] ∧
    (generate_summary tokLen genConst (".") ("summary")).2 = [("", 130)] := by
  decide

/-- C10: any level other than abstract and article is treated exactly
like the default summary level: the pipeline's behavior is identical
and the target word count is 130. -/
theorem generate_summary_unknown_level (tok : String → Nat) (gen : String → Nat → String)
    (text level : String) (h1 : level ≠ "abstract") (h2 : level ≠ "article") :
    generate_summary tok gen text level = generate_summary tok gen text ("summary") ∧
    targetWords level = 130 := by
  have ht : targetWords level = 130 := by simp [targetWords, h1, h2]
  have ht' : targetWords ("summary") = 130 := by decide
  exact ⟨by simp only [generate_summary, ht, ht'], ht⟩

/-- Witness for C10 at the unrecognized level string bogus. -/
theorem generate_summary_unknown_level_witness :
    generate_summary tokLen genConst ("Hi.") ("bogus") =
      generate_summary tokLen genConst ("Hi.") ("summary") ∧
    targetWords ("bogus") = 130 :=
  generate_summary_unknown_level tokLen genConst ("Hi.") ("bogus") (by decide) (by decide)

/-- The deduplication loop returns a subsequence of its input. -/
theorem remove_duplicates_aux_sublist (l : List String) :
    ∀ seen, List.Sublist (remove_duplicates_aux seen l) l := by
  induction l with
  | nil => intro seen; simp [remove_duplicates_aux]
  | cons a rest ih =>
    intro seen
    simp only [remove_duplicates_aux]
    split_ifs with h
    · exact List.Sublist.cons₂ a (ih (normalized a :: seen))
    · exact List.Sublist.cons a (ih seen)

/-- Every sentence kept by the deduplication loop has a non-empty key
that was not among the already seen keys. -/
theorem remove_duplicates_aux_keys (l : List String) :
    ∀ seen, ∀ s ∈ remove_duplicates_aux seen l,
      normalized s ≠ "" ∧ normalized s ∉ seen := by
  induction l with
  | nil => intro seen s hs; simp [remove_duplicates_aux] at hs
  | cons a rest ih =>
    intro seen s hs
    simp only [remove_duplicates_aux] at hs
    split_ifs at hs with h
    · rcases List.mem_cons.mp hs with hs | hs
      · exact hs ▸ h
      · have := ih (normalized a :: seen) s hs
        exact ⟨this.1, fun hin => this.2 (List.mem_cons_of_mem _ hin)⟩
    · exact ih seen s hs

/-- The sentences kept by the deduplication loop have pairwise distinct
keys. -/
theorem remove_duplicates_aux_pairwise (l : List String) :
    ∀ seen, (remove_duplicates_aux seen l).Pairwise
      (fun a b => normalized a ≠ normalized b) := by
  induction l with
  | nil => intro seen; simp [remove_duplicates_aux]
  | cons a rest ih =>
    intro seen
    simp only [remove_duplicates_aux]
    split_ifs with h
    · refine List.Pairwise.cons ?_ (ih (normalized a :: seen))
      intro b hb hab
      exact (remove_duplicates_aux_keys rest (normalized a :: seen) b hb).2
        (hab ▸ List.mem_cons_self _ _)
    · exact ih seen

/-- Every sentence kept by the deduplication loop is the first sentence
of the input bearing its key, among those whose key is outside seen. -/
theorem remove_duplicates_aux_first (l : List String) :
    ∀ seen, ∀ s ∈ remove_duplicates_aux seen l,
      ∃ pre post, l = pre ++ s :: post ∧ ∀ t ∈ pre, normalized t ≠ normalized s := by
  induction l with
  | nil => intro seen s hs; simp [remove_duplicates_aux] at hs
  | cons a rest ih =>
    intro seen s hs
    simp only [remove_duplicates_aux] at hs
    split_ifs at hs with h
    · rcases List.mem_cons.mp hs with hs | hs
      · exact ⟨[], rest, by simp [hs], by simp⟩
      · obtain ⟨pre, post, hsplit, hpre⟩ := ih (normalized a :: seen) s hs
        refine ⟨a :: pre, post, by simp [hsplit], ?_⟩
        intro t ht
        rcases List.mem_cons.mp ht with ht | ht
        · subst ht
          have := (remove_duplicates_aux_keys rest (normalized t :: seen) s hs).2
          exact fun heq => this (heq ▸ List.mem_cons_self _ _)
        · exact hpre t ht
    · obtain ⟨pre, post, hsplit, hpre⟩ := ih seen s hs
      refine ⟨a :: pre, post, by simp [hsplit], ?_⟩
      intro t ht
      rcases List.mem_cons.mp ht with ht | ht
      · subst ht
        have hk := remove_duplicates_aux_keys rest seen s hs
        rcases Decidable.not_and_iff_or_not.mp h with hn | hn
        · rw [Decidable.not_not] at hn
          exact fun heq => hk.1 (heq.symm.trans hn)
        · rw [Decidable.not_not] at hn
          exact fun heq => hk.2 (heq ▸ hn)
      · exact hpre t ht

/-- Every input sentence with a non-empty key not already seen has a
representative with the same key among the kept sentences. -/
theorem remove_duplicates_aux_complete (l : List String) :
    ∀ seen, ∀ t ∈ l, normalized t ≠ "" → normalized t ∉ seen →
      ∃ s ∈ remove_duplicates_aux seen l, normalized s = normalized t := by
  induction l with
  | nil => intro seen t ht; simp at ht
  | cons a rest ih =>
    intro seen t ht hne hnotseen
    simp only [remove_duplicates_aux]
    rcases List.mem_cons.mp ht with ht | ht
    · subst ht
      rw [if_pos ⟨hne, hnotseen⟩]
      exact ⟨t, List.mem_cons_self _ _, rfl⟩
    · split_ifs with h
      · by_cases heq : normalized t = normalized a
        · exact ⟨a, List.mem_cons_self _ _, heq.symm⟩
        · obtain ⟨s, hs, hkey⟩ := ih (normalized a :: seen) t ht hne
            (by simp [heq, hnotseen])
          exact ⟨s, List.mem_cons_of_mem _ hs, hkey⟩
      · exact ih seen t ht hne hnotseen

/-- C7 (amended): the deduplicator output has pairwise distinct keys,
where the key of a sentence is obtained by trimming outer whitespace,
then stripping trailing terminal punctuation, then lowercasing (the
order the code applies); sentences with an empty key are dropped, the
output is a subsequence of the input (order preserved), every kept
sentence is the first occurrence of its key, and every non-empty key of
the input is represented in the output. -/
theorem remove_duplicates_spec (sentences : List String) :
    (remove_duplicates sentences).Pairwise (fun a b => normalized a ≠ normalized b) ∧
    (∀ s ∈ remove_duplicates sentences, normalized s ≠ "") ∧
    List.Sublist (remove_duplicates sentences) sentences ∧
    (∀ s ∈ remove_duplicates sentences, ∃ pre post, sentences = pre ++ s :: post ∧
      ∀ t ∈ pre, normalized t ≠ normalized s) ∧
    (∀ t ∈ sentences, normalized t ≠ "" →
      ∃ s ∈ remove_duplicates sentences, normalized s = normalized t) :=
  ⟨remove_duplicates_aux_pairwise sentences [],
   fun s hs => (remove_duplicates_aux_keys sentences [] s hs).1,
   remove_duplicates_aux_sublist sentences [],
   remove_duplicates_aux_first sentences [],
   fun t ht hne => remove_duplicates_aux_complete sentences [] t ht hne (by simp)⟩

/-- Witness for C7 on a two-sentence input differing only in trailing
punctuation and case. -/
theorem remove_duplicates_spec_witness :
    List.Sublist (remove_duplicates (["Cats are mammals.", "Cats are mammals!"]))
      (["Cats are mammals.", "Cats are mammals!"]) :=
  (remove_duplicates_spec (["Cats are mammals.", "Cats are mammals!"])).2.2.1

/-- Counterexample to C7 as stated: with the key computed in the order
the claim gives (lowercase, strip trailing punctuation, then trim
whitespace), the two sentences below share one key, yet both survive
deduplication, because the code trims whitespace before stripping
punctuation and therefore assigns them distinct keys. -/
theorem remove_duplicates_spec_key_cex :
    remove_duplicates (["a. ", "a. !"]) = ["a. ", "a. !"] ∧
    specNormKey ("a. ") = specNormKey ("a. !") := by
  decide

/-- C8: the deduplicator is idempotent. -/
theorem remove_duplicates_idempotent (sentences : List String) :
    remove_duplicates (remove_duplicates sentences) = remove_duplicates sentences := by
  have hfix : ∀ (l : List String) (seen : List String),
      (∀ s ∈ l, normalized s ≠ "" ∧ normalized s ∉ seen) →
      l.Pairwise (fun a b => normalized a ≠ normalized b) →
      remove_duplicates_aux seen l = l := by
    intro l
    induction l with
    | nil => intro seen _ _; rfl
    | cons a rest ih =>
      intro seen hkeys hpair
      have ha := hkeys a (List.mem_cons_self _ _)
      simp only [remove_duplicates_aux, if_pos ha]
      rw [ih (normalized a :: seen) ?_ (List.Pairwise.of_cons hpair)]
      intro s hs
      refine ⟨(hkeys s (List.mem_cons_of_mem _ hs)).1, ?_⟩
      intro hin
      rcases List.mem_cons.mp hin with hin | hin
      · exact (List.rel_of_pairwise_cons hpair hs) hin.symm
      · exact (hkeys s (List.mem_cons_of_mem _ hs)).2 hin
  exact hfix (remove_duplicates sentences) []
    (fun s hs => ⟨(remove_duplicates_aux_keys sentences [] s hs).1, by simp⟩)
    (remove_duplicates_aux_pairwise sentences [])

/-- C9: the coverage score always lies in the interval from 0 to 100;
it equals 100 exactly when the original sentences contain no concept
token, and otherwise equals 100 times the number of distinct concept
tokens shared between original and summary divided by the number of
distinct concept tokens of the original. -/
theorem verify_coverage_spec (original_sentences : List String) (summary : String) :
    0 ≤ verify_coverage original_sentences summary ∧
    verify_coverage original_sentences summary ≤ 100 ∧
    (concept_tokens (pyLower (joinSp original_sentences)) = ∅ →
      verify_coverage original_sentences summary = 100) ∧
    (concept_tokens (pyLower (joinSp original_sentences)) ≠ ∅ →
      verify_coverage original_sentences summary =
        100 * ((concept_tokens (pyLower (joinSp original_sentences)) ∩
            concept_tokens (pyLower summary)).card : ℚ) /
          (concept_tokens (pyLower (joinSp original_sentences))).card) := by
  simp only [verify_coverage]
  by_cases h : concept_tokens (pyLower (joinSp original_sentences)) = ∅
  · rw [if_pos h]
    refine ⟨by norm_num, by norm_num, fun _ => rfl, fun hne => absurd h hne⟩
  · rw [if_neg h]
    have hpos : 0 < ((concept_tokens (pyLower (joinSp original_sentences))).card : ℚ) := by
      have := Finset.card_pos.mpr (Finset.nonempty_iff_ne_empty.mpr h)
      exact_mod_cast this
    have hle : ((concept_tokens (pyLower (joinSp original_sentences)) ∩
        concept_tokens (pyLower summary)).card : ℚ) ≤
        ((concept_tokens (pyLower (joinSp original_sentences))).card : ℚ) := by
      exact_mod_cast Finset.card_le_card Finset.inter_subset_left
    refine ⟨?_, ?_, fun he => absurd he h, fun _ => by ring⟩
    · positivity
    · calc ((concept_tokens (pyLower (joinSp original_sentences)) ∩
            concept_tokens (pyLower summary)).card : ℚ) /
            (concept_tokens (pyLower (joinSp original_sentences))).card * 100
          ≤ 1 * 100 := by
            have := (div_le_one hpos).mpr hle
            nlinarith
      _ = 100 := by norm_num

/-- Witness for C9: an original with the two concept tokens hello and
world and a summary containing only the first scores 50. -/
theorem verify_coverage_spec_witness :
    verify_coverage (["Hello World."]) ("hello") =
      100 * ((concept_tokens (pyLower (joinSp (["Hello World."]))) ∩
          concept_tokens (pyLower ("hello"))).card : ℚ) /
        (concept_tokens (pyLower (joinSp (["Hello World."])))).card :=
  (verify_coverage_spec (["Hello World."]) ("hello")).2.2.2 (by decide)

/-- C4: when the input has at least one sentence, the orchestrator takes
the single-pass path exactly when the token count of the joined
deduplicated text is at most max_input_tokens (1024): in that case the
result is one model call on that joined text with the level's target
word count, whose output is returned directly; when the token count
exceeds the bound, the result is the multi-stage path on the
deduplicated sentences. -/
theorem generate_summary_path_selection (tok : String → Nat) (gen : String → Nat → String)
    (text level : String) (h : split_sentences (clean_text text) ≠ []) :
    (tok (joinSp (remove_duplicates (split_sentences (clean_text text)))) ≤ max_input_tokens →
      generate_summary tok gen text level =
        (gen (joinSp (remove_duplicates (split_sentences (clean_text text)))) (targetWords level),
          [(joinSp (remove_duplicates (split_sentences (clean_text text))), targetWords level)])) ∧
    (max_input_tokens < tok (joinSp (remove_duplicates (split_sentences (clean_text text)))) →
      generate_summary tok gen text level =
        hierarchical_summarize tok gen (remove_duplicates (split_sentences (clean_text text)))
          (targetWords level)) := by
  constructor
  · intro hle
    simp only [generate_summary, direct_summarize]
    rw [if_neg h, if_neg (by omega)]
  · intro hgt
    simp only [generate_summary]
    rw [if_neg h, if_pos (by omega)]

/-- C6: in the multi-stage path every Stage-1 (per-chunk) model call —
every entry of the call trace except the final compression call — uses
the same target word budget max(80, round(target_words * 0.7)), where
target_words is the level's target word count.  (The code computes
int(target_words * 0.7); for the three level targets 60, 130 and 250
the product is an exact integer, so truncation and rounding agree.) -/
theorem hierarchical_words_per_chunk (tok : String → Nat) (gen : String → Nat → String)
    (sentences : List String) (level : String) :
    ∀ p ∈ (hierarchical_summarize tok gen sentences (targetWords level)).2.dropLast,
      (p.2 : ℤ) = max 80 (round ((targetWords level : ℚ) * 7 / 10)) := by
  intro p hp
  have htrace : (hierarchical_summarize tok gen sentences (targetWords level)).2.dropLast =
      (create_balanced_chunks tok sentences).map
        (fun c => (joinSp c, max 80 (targetWords level * 7 / 10))) := by
    simp only [hierarchical_summarize, List.dropLast_concat]
  rw [htrace] at hp
  obtain ⟨c, _, hc⟩ := List.mem_map.mp hp
  have hp2 : p.2 = max 80 (targetWords level * 7 / 10) := by rw [← hc]
  rw [hp2]
  by_cases h1 : level = "abstract"
  · have ht : targetWords level = 60 := by simp [targetWords, h1]
    have hr : ((targetWords level : ℚ) * 7 / 10) = ((42 : ℤ) : ℚ) := by
      rw [ht]; norm_num
    rw [hr, round_intCast, ht]
    decide
  · by_cases h2 : level = "article"
    · have ht : targetWords level = 250 := by simp [targetWords, h1, h2]
      have hr : ((targetWords level : ℚ) * 7 / 10) = ((175 : ℤ) : ℚ) := by
        rw [ht]; norm_num
      rw [hr, round_intCast, ht]
      decide
    · have ht : targetWords level = 130 := by simp [targetWords, h1, h2]
      have hr : ((targetWords level : ℚ) * 7 / 10) = ((91 : ℤ) : ℚ) := by
        rw [ht]; norm_num
      rw [hr, round_intCast, ht]
      decide

/-- Witness for C6: for a single-chunk request at the summary level the
Stage-1 call carries the budget 91 = max(80, round(130 * 0.7)). -/
theorem hierarchical_words_per_chunk_witness :
    (((("aa."), 91) : String × Nat).2 : ℤ) =
      max 80 (round ((targetWords ("summary") : ℚ) * 7 / 10)) :=
  hierarchical_words_per_chunk tokLen genConst (["aa."]) ("summary") (("aa."), 91) (by decide)

/-- Witness for C4: a short input takes the single-pass path with one
model call on the joined deduplicated text. -/
theorem generate_summary_path_selection_witness :
    generate_summary tokLen genConst ("Hi.") ("summary") =
      (genConst (joinSp (remove_duplicates (split_sentences (clean_text ("Hi.")))))
          (targetWords ("summary")),
        [(joinSp (remove_duplicates (split_sentences (clean_text ("Hi.")))),
          targetWords ("summary"))]) :=
  (generate_summary_path_selection tokLen genConst ("Hi.") ("summary") (by decide)).1 (by decide)

end Gist
